import Mathlib

/-!
Shallow embedding of the B+ tree insertion core from `src/main.rs`
(`BPTreeKeyValue`, `BPTreeNode`, `BPTree` and their methods), followed by
theorems checking the specification's claims against those definitions.

Modelling conventions:
* Rust `Vec` becomes `List`.  `Vec::split_off`, slice indexing and
  `Vec::insert` keep their panicking behaviour through the `Except Err`
  monad (`Err.panic`); provably in-bounds std guarantees (binary search
  results) are translated directly.
* Rust `String` comparison (`Ord::cmp`, byte-lexicographic) is modelled by
  `strCmp` on Lean strings: UTF-8 byte order coincides with code-point
  order, which is Lean's `String` order.
* `slice::binary_search_by` is only ever applied by the source to
  strictly-sorted key sequences; it is modelled by `bsearchBy`, the
  canonical result specified by the std contract (`Ok idx` of a matching
  element, otherwise `Err` of the lower-bound insertion point).
* The two unbounded loops of the source (`search_leaf`'s descent and
  `split_nodes`' upward walk) are modelled with explicit fuel; exhausting
  the fuel yields `Err.diverge`.  A terminating descent never revisits an
  offset (the step function is deterministic), so fuel `nodes.length + 1`
  makes `searchLeaf` return exactly when the source's loop terminates.
-/

/-- Rust `BPTreeKeyValue`. -/
structure KV where
  key : String
  value : String
deriving DecidableEq, Repr

/-- Rust `enum BPTreeNode`. -/
inductive BPTreeNode where
  | internal (parent : Option Nat) (child : List Nat) (keys : List String)
  | leaf (parent : Option Nat) (next : Option Nat) (kvs : List KV)
deriving DecidableEq, Repr

/-- Abnormal outcomes of running the Rust code: an index/slice panic, or an
infinite loop (fuel exhaustion in the model). -/
inductive Err where
  | panic
  | diverge
deriving DecidableEq, Repr

/-- Computation that may panic or diverge. -/
abbrev M (α : Type) := Except Err α

/-- Lexicographic comparison of character sequences by code point. -/
def charListCmp : List Char → List Char → Ordering
  | [], [] => .eq
  | [], _ :: _ => .lt
  | _ :: _, [] => .gt
  | a :: as, b :: bs =>
    if a.toNat < b.toNat then .lt
    else if b.toNat < a.toNat then .gt
    else charListCmp as bs

/-- Rust `Ord::cmp` on `String`: lexicographic byte order, which for UTF-8
coincides with lexicographic code-point order. -/
def strCmp (a b : String) : Ordering := charListCmp a.data b.data

/-- Result of `slice::binary_search_by`: `Ok idx` / `Err insertion_point`. -/
inductive SearchResult where
  | found (i : Nat)
  | notFound (i : Nat)
deriving DecidableEq, Repr

/-- Canonical result of `binary_search_by (|probe| cmp(probe, key))` on a
strictly sorted sequence (the only sequences the source searches): the
index of the matching element, or the lower-bound insertion point. -/
def bsearchBy (f : α → String) (key : String) : List α → SearchResult
  | [] => .notFound 0
  | a :: rest =>
    match strCmp (f a) key with
    | .eq => .found 0
    | .gt => .notFound 0
    | .lt =>
      match bsearchBy f key rest with
      | .found i => .found (i + 1)
      | .notFound i => .notFound (i + 1)

/-- Rust `v[i]` on a `Vec`/slice: panics when out of bounds. -/
def idxGet (l : List α) (i : Nat) : M α :=
  match l[i]? with
  | some a => .ok a
  | none => .error .panic

/-- Rust `Vec::split_off(at)`: panics when `at > len`; otherwise the
original keeps the prefix and the suffix is returned. -/
def splitOff (l : List α) (i : Nat) : M (List α × List α) :=
  if i ≤ l.length then .ok (l.take i, l.drop i) else .error .panic

namespace BPTreeNode

/-- Rust `BPTreeNode::split`: divides this node's payload in two, returning
`(mutated original, new right node)`.  For an `Internal` node the keys are
split at `child.len() / 2` (the boundary key is dropped from both halves),
the children at `child.len() / 2 + 1`; for a `Leaf` the entries are split
at `kvs.len() / 2` and the new leaf's `next` is left unset. -/
def split : BPTreeNode → M (BPTreeNode × BPTreeNode)
  | internal parent child keys => do
    let (keysL, centerAndRight) ← splitOff keys (child.length / 2)
    let (childL, childR) ← splitOff child (child.length / 2 + 1)
    let (_, keysR) ← splitOff centerAndRight 1
    .ok (internal parent childL keysL, internal parent childR keysR)
  | leaf parent next kvs =>
    .ok (leaf parent next (kvs.take (kvs.length / 2)),
         leaf parent none (kvs.drop (kvs.length / 2)))

/-- Rust `BPTreeNode::set_parent_offset` (the returned value is unused by
all callers and omitted). -/
def set_parent_offset : BPTreeNode → Nat → BPTreeNode
  | internal _ child keys, off => internal (some off) child keys
  | leaf _ next kvs, off => leaf (some off) next kvs

/-- Rust `BPTreeNode::push_data`: on an `Internal` node, insert the key at
its binary-search position and the child handle right after it; a no-op
when the key is already present or on a `Leaf`. -/
def push_data (n : BPTreeNode) (new_child : Nat) (key : String) : BPTreeNode :=
  match n with
  | internal parent child keys =>
    match bsearchBy id key keys with
    | .notFound idx => internal parent (child.insertIdx (idx + 1) new_child) (keys.insertIdx idx key)
    | .found _ => internal parent child keys
  | leaf p nx kvs => leaf p nx kvs

end BPTreeNode

/-- Rust `struct BPTree`. -/
structure BPTree where
  order : Nat
  nodes : List BPTreeNode
  root : Nat
  first_leaf : Nat
deriving DecidableEq, Repr

instance : Inhabited BPTree := ⟨⟨0, [], 0, 0⟩⟩

namespace BPTree

/-- Rust `BPTree::new`: order normalization (even → `order + 1`, then
`< 3` → `3`), one empty leaf as root and first leaf. -/
def new (order : Nat) : BPTree :=
  let order := if order % 2 = 0 then order + 1 else if order < 3 then 3 else order
  { order := order
    nodes := [BPTreeNode.leaf none none []]
    root := 0
    first_leaf := 0 }

/-- Rust `BPTree::search_leaf`'s `while` loop, with explicit fuel: descend
while the current offset holds an `Internal` node; an exact separator match
continues at `child[idx] + 1`, a miss at `child[idx]`. -/
def searchLeafF (nodes : List BPTreeNode) (key : String) : Nat → Nat → M Nat
  | 0, _ => .error .diverge
  | fuel + 1, offset =>
    match nodes[offset]? with
    | some (.internal _ child keys) =>
      match bsearchBy id key keys with
      | .found idx => do
        let c ← idxGet child idx
        searchLeafF nodes key fuel (c + 1)
      | .notFound idx => do
        let c ← idxGet child idx
        searchLeafF nodes key fuel c
    | _ => .ok offset

/-- Rust `BPTree::search_leaf`.  A terminating run of the source loop never
revisits an offset, hence takes at most `nodes.length + 1` iterations. -/
def search_leaf (nodes : List BPTreeNode) (root_offset : Nat) (key : String) : M Nat :=
  searchLeafF nodes key (nodes.length + 1) root_offset

/-- Rust `BPTree::insert_non_full`: binary-search the key; update the value
in place on an exact match (the source re-checks key equality before
writing), insert at the returned position otherwise. -/
def insert_non_full (kvs : List KV) (kv : KV) : List KV :=
  match bsearchBy KV.key kv.key kvs with
  | .found idx =>
    match kvs[idx]? with
    | some old => kvs.set idx (if strCmp kv.key old.key = .eq then { old with value := kv.value } else old)
    | none => kvs
  | .notFound idx => kvs.insertIdx idx kv

/-- Single step of `update_child_parent`'s `for` loop: `nodes[child_idx]`
(panics when out of bounds) gets its parent set. -/
def ucpAux (pidx : Nat) : List Nat → List BPTreeNode → M (List BPTreeNode)
  | [], nodes => .ok nodes
  | c :: rest, nodes =>
    match nodes[c]? with
    | none => .error .panic
    | some n => ucpAux pidx rest (nodes.set c (n.set_parent_offset pidx))

/-- Rust `BPTree::update_child_parent`: re-point every child of the
`Internal` node at `new_child_idx` to it (a no-op on a `Leaf`). -/
def update_child_parent (nodes : List BPTreeNode) (new_child_idx : Nat) : M (List BPTreeNode) :=
  match nodes[new_child_idx]? with
  | none => .error .panic
  | some (.leaf _ _ _) => .ok nodes
  | some (.internal _ child _) => ucpAux new_child_idx child nodes

/-- Sets a `Leaf` node's parent handle, leaving other variants unchanged
(the `if let BPTreeNode::Leaf { parent, .. }` writes in `insert_full`). -/
def setLeafParent (n : BPTreeNode) (p : Nat) : BPTreeNode :=
  match n with
  | .leaf _ nx kvs => .leaf (some p) nx kvs
  | other => other

/-- Rust `BPTree::split_nodes`'s `while` loop with explicit fuel, state
`(new_right_child_offset, new_right_key, curr_parent_offset)` threaded
through the recursion together with the node arena.  Returns the arena and
the optional new root offset. -/
def splitNodesF (order : Nat) : Nat → List BPTreeNode → Option Nat → Option String → Option Nat →
    M (List BPTreeNode × Option Nat)
  | 0, _, _, _, _ => .error .diverge
  | fuel + 1, nodes, newRightChild, newRightKey, currParent =>
    match newRightChild with
    | none => .ok (nodes, none)
    | some rcOff =>
      match currParent with
      | none => .ok (nodes, none)
      | some poff =>
        match nodes[poff]? with
        | none => .ok (nodes, none)
        | some (.leaf _ _ _) => .ok (nodes, none)
        | some (.internal parent child keys) =>
          let nextParent := parent
          if keys.length = order - 1 then do
            let centerKey ← idxGet keys (order / 2)
            match parent with
            | none => do
              let nodes₁ := nodes ++ [BPTreeNode.internal none [poff] []]
              let newRootOff := nodes.length
              match nodes₁[poff]? with
              | none => .ok (nodes₁, none)
              | some leftNode => do
                let leftNode := leftNode.set_parent_offset newRootOff
                let (leftNode, rightNode) ← leftNode.split
                let nodes₂ := nodes₁.set poff leftNode
                match newRightKey with
                | none => .ok (nodes₂, none)
                | some key => do
                  let rightNode := (rightNode.set_parent_offset newRootOff).push_data rcOff key
                  let nodes₃ := nodes₂ ++ [rightNode]
                  let newChildOff := nodes₂.length
                  let nodes₄ ← update_child_parent nodes₃ newChildOff
                  splitNodesF order fuel nodes₄ (some newChildOff) (some centerKey) (some newRootOff)
            | some parentOff => do
              let (leftNode, rightNode) ← (BPTreeNode.internal parent child keys).split
              let nodes₁ := nodes.set poff leftNode
              match newRightKey with
              | none => .ok (nodes₁, none)
              | some key => do
                let rightNode := (rightNode.set_parent_offset parentOff).push_data rcOff key
                let nodes₂ := nodes₁ ++ [rightNode]
                let newChildOff := nodes₁.length
                let nodes₃ ← update_child_parent nodes₂ newChildOff
                splitNodesF order fuel nodes₃ (some newChildOff) (some centerKey) (some parentOff)
          else
            match newRightKey with
            | none => .ok (nodes, none)
            | some key =>
              let nodes₁ := nodes.set poff ((BPTreeNode.internal parent child keys).push_data rcOff key)
              match nextParent with
              | none => .ok (nodes₁, some poff)
              | some np => splitNodesF order fuel nodes₁ none none (some np)

/-- Rust `BPTree::insert_full`: wire the sibling chain of the two leaf
halves, capture the separator (`new_kvs[0].key`, panicking when the new
half is empty), place the incoming entry, then create a new root or hand
off to `split_nodes`. -/
def insert_full (nodes : List BPTreeNode) (kv : KV) (old_leaf_offset new_leaf_offset order : Nat) :
    M (List BPTreeNode × Option Nat) :=
  if new_leaf_offset + 1 > nodes.length then .error .panic
  else if old_leaf_offset > new_leaf_offset + 1 then .error .panic
  else if ¬ old_leaf_offset < new_leaf_offset then .ok (nodes, none)
  else
    match nodes[old_leaf_offset]?, nodes[new_leaf_offset]? with
    | some (.leaf oldP oldNx oldKvs), some (.leaf _ _ newKvs) =>
      (match newKvs[0]? with
      | none => .error .panic
      | some kv0 =>
        let sep := kv0.key
        let (oldKvs', newKvs') :=
          if strCmp sep kv.key = .gt then (insert_non_full oldKvs kv, newKvs)
          else (oldKvs, insert_non_full newKvs kv)
        let nodes₁ := (nodes.set old_leaf_offset (.leaf oldP (some new_leaf_offset) oldKvs')).set
          new_leaf_offset (.leaf oldP oldNx newKvs')
        match oldP with
        | none =>
          let newRootOff := nodes₁.length
          let nodes₂ := nodes₁ ++ [BPTreeNode.internal none [old_leaf_offset, new_leaf_offset] [sep]]
          let nodes₃ :=
            match nodes₂[old_leaf_offset]?, nodes₂[new_leaf_offset]? with
            | some o, some n =>
              (nodes₂.set old_leaf_offset (setLeafParent o newRootOff)).set
                new_leaf_offset (setLeafParent n newRootOff)
            | _, _ => nodes₂
          .ok (nodes₃, some newRootOff)
        | some poff => splitNodesF order (nodes₁.length + 2) nodes₁ (some new_leaf_offset) (some sep) (some poff))
    | _, _ => .ok (nodes, none)

/-- Rust `BPTree::insert`: split the target leaf when it already holds
`order - 1` entries, otherwise insert/update in place. -/
def insert (nodes : List BPTreeNode) (kv : KV) (leaf_offset order : Nat) :
    M (List BPTreeNode × Option Nat) :=
  match nodes[leaf_offset]? with
  | some (.leaf p nx kvs) =>
    if kvs.length = order - 1 then
      match (BPTreeNode.leaf p nx kvs).split with
      | .error e => .error e
      | .ok (oldN, newN) =>
        insert_full ((nodes.set leaf_offset oldN) ++ [newN]) kv leaf_offset nodes.length order
    else
      .ok (nodes.set leaf_offset (.leaf p nx (insert_non_full kvs kv)), none)
  | _ => .ok (nodes, none)

/-- Rust `BPTree::put`. -/
def put (t : BPTree) (key value : String) : M BPTree := do
  let leafOff ← search_leaf t.nodes t.root key
  let (nodes', newRoot) ← insert t.nodes ⟨key, value⟩ leafOff t.order
  .ok { t with nodes := nodes', root := newRoot.getD t.root }

/-- Rust `BPTree::get`. -/
def get (t : BPTree) (key : String) : M (Option KV) := do
  let leafOff ← search_leaf t.nodes t.root key
  match t.nodes[leafOff]? with
  | some (.leaf _ _ kvs) =>
    match bsearchBy KV.key key kvs with
    | .found idx => .ok kvs[idx]?
    | .notFound _ => .ok none
  | _ => .ok none

end BPTree

/-- Runs a sequence of `put` calls (the source's only mutating operation;
`get` takes `&self` and cannot change the tree). -/
def runPuts (t : BPTree) : List (String × String) → M BPTree
  | [] => .ok t
  | (k, v) :: rest => do
    let t' ← t.put k v
    runPuts t' rest

/-- Number of entries a node contributes: a leaf's `kvs` length. -/
def leafLen : BPTreeNode → Nat
  | .leaf _ _ kvs => kvs.length
  | .internal _ _ _ => 0

/-- Total number of entries stored in the tree's leaves. -/
def entryCount (t : BPTree) : Nat :=
  (t.nodes.map leafLen).sum

/-- Recursive characterization of `BPTree.insert_non_full` (proved equal to
it in `insert_non_full_eq_upsertList` below): walk to the first position
whose key is not below the incoming key; overwrite the value there on an
exact match, insert just before it otherwise. -/
def upsertList (kv : KV) : List KV → List KV
  | [] => [kv]
  | a :: rest =>
    match strCmp a.key kv.key with
    | .lt => a :: upsertList kv rest
    | .eq => { a with value := kv.value } :: rest
    | .gt => kv :: a :: rest

/-! ### Concrete traces used in the theorems below. -/

/-- Nine single-character puts into an order-3 tree (order 3 keeps nodes
small, so the routing defect surfaces after few insertions). -/
def trace9 : List (String × String) :=
  [("a", "1"), ("b", "1"), ("c", "1"), ("d", "1"), ("e", "1"),
   ("f", "1"), ("g", "1"), ("h", "1"), ("i", "1")]

/-- Four single-character puts into an order-3 tree. -/
def trace4 : List (String × String) :=
  [("a", "1"), ("b", "1"), ("c", "1"), ("d", "1")]

/-- The tree reached from `new 3` by `trace9` (every put returns; the
equality with `runPuts` is proved in the theorems that use it). -/
def tree9 : BPTree where
  order := 3
  nodes :=
    [.leaf (some 2) (some 1) [⟨"a", "1"⟩],
     .leaf (some 2) (some 3) [⟨"b", "1"⟩],
     .internal (some 5) [0, 1] ["b"],
     .leaf (some 6) (some 4) [⟨"c", "1"⟩],
     .leaf (some 6) (some 7) [⟨"d", "1"⟩],
     .internal (some 13) [2, 6] ["c"],
     .internal (some 5) [3, 4] ["d"],
     .leaf (some 9) (some 8) [⟨"e", "1"⟩],
     .leaf (some 9) (some 10) [⟨"f", "1"⟩],
     .internal (some 14) [7, 8] ["f"],
     .leaf (some 12) (some 11) [⟨"g", "1"⟩],
     .leaf (some 12) none [⟨"h", "1"⟩, ⟨"i", "1"⟩],
     .internal (some 14) [10, 11] ["h"],
     .internal none [5, 14] ["e"],
     .internal (some 13) [9, 12] ["g"]]
  root := 13
  first_leaf := 0

/-- The tree reached from `new 3` by `trace4`. -/
def tree4 : BPTree where
  order := 3
  nodes :=
    [.leaf (some 2) (some 1) [⟨"a", "1"⟩],
     .leaf (some 2) (some 3) [⟨"b", "1"⟩],
     .internal none [0, 1, 3] ["b", "c"],
     .leaf (some 2) none [⟨"c", "1"⟩, ⟨"d", "1"⟩]]
  root := 2
  first_leaf := 0

/-- Order-5 trace whose last element re-puts key "ab" with a new value
after an earlier put of "ab" filled and split its leaf. -/
def c3trace : List (String × String) :=
  [("a", "1"), ("b", "1"), ("c", "1"), ("d", "1"), ("e", "1"),
   ("aa", "1"), ("ab", "1"), ("ab", "v1")]

/-- Order-3 tree with one full root leaf (two entries), used as the C6
witness input. -/
def c6tree : BPTree where
  order := 3
  nodes := [.leaf none none [⟨"a", "1"⟩, ⟨"b", "1"⟩]]
  root := 0
  first_leaf := 0

/-- The tree `put c6tree "c" "1"` produces: the leaf split in two plus a
new internal root. -/
def c6treeAfter : BPTree where
  order := 3
  nodes :=
    [.leaf (some 2) (some 1) [⟨"a", "1"⟩],
     .leaf (some 2) none [⟨"b", "1"⟩, ⟨"c", "1"⟩],
     .internal none [0, 1] ["b"]]
  root := 2
  first_leaf := 0

/-- Number of keys (internal node) or entries (leaf) a node holds. -/
def nodeCount : BPTreeNode → Nat
  | .internal _ _ keys => keys.length
  | .leaf _ _ kvs => kvs.length

/-- Structural soundness of one node: children/keys alignment for internal
nodes, and the capacity bound of the spec. -/
def nodeOk (order : Nat) : BPTreeNode → Prop
  | .internal _ child keys => child.length = keys.length + 1 ∧ keys.length ≤ order - 1
  | .leaf _ _ kvs => kvs.length ≤ order - 1

/-- Every node of the arena is structurally sound. -/
def arenaOk (order : Nat) (nodes : List BPTreeNode) : Prop :=
  ∀ n ∈ nodes, nodeOk order n

/-- Children/keys alignment of an internal node (trivial for leaves). -/
def aligned : BPTreeNode → Prop
  | .internal _ child keys => child.length = keys.length + 1
  | .leaf _ _ _ => True

/-- Order-3 tree holding the single entry ("a", "1"): the result of one
put into a fresh tree, used as the C4/C5 witness output. -/
def w1tree : BPTree where
  order := 3
  nodes := [.leaf none none [⟨"a", "1"⟩]]
  root := 0
  first_leaf := 0

/-! ### Claim theorems. -/

/-- C7: `new` normalizes the order (even input → `order + 1`, input below 3
→ 3), so `new 4` and `new 5` are the same tree and `new 1`, `new 2`, `new 3`
are the same tree — hence behave identically under every sequence of puts
and gets — and the constructed tree is a single empty leaf that is both
root and first leaf. -/
theorem c7_order_normalization :
    BPTree.new 4 = BPTree.new 5 ∧ BPTree.new 1 = BPTree.new 3 ∧ BPTree.new 2 = BPTree.new 3 ∧
    (∀ ops, runPuts (BPTree.new 4) ops = runPuts (BPTree.new 5) ops) ∧
    (∀ ops, runPuts (BPTree.new 1) ops = runPuts (BPTree.new 3) ops) ∧
    (∀ ops, runPuts (BPTree.new 2) ops = runPuts (BPTree.new 3) ops) ∧
    (∀ key, BPTree.get (BPTree.new 4) key = BPTree.get (BPTree.new 5) key) ∧
    (∀ order, (BPTree.new order).nodes = [BPTreeNode.leaf none none []] ∧
      (BPTree.new order).root = 0 ∧ (BPTree.new order).first_leaf = 0) :=
  ⟨rfl, rfl, rfl, fun _ => rfl, fun _ => rfl, fun _ => rfl, fun _ => rfl,
   fun _ => ⟨rfl, rfl, rfl⟩⟩

/-- C10: `new 0` stores order 1 (the even input 0 is incremented, not
raised to 3); its root leaf counts as full at 0 entries, the first put
splits it into two empty leaves, and indexing the new leaf's first entry
panics. -/
theorem c10_new_zero_first_put_panics :
    (BPTree.new 0).order = 1 ∧
    (0 = (BPTree.new 0).order - 1) ∧
    (BPTreeNode.leaf none none ([] : List KV)).split =
      .ok (.leaf none none [], .leaf none none []) ∧
    BPTree.put (BPTree.new 0) "a" "v" = .error .panic :=
  ⟨rfl, rfl, rfl, rfl⟩

/-- C1: the claim that `get k` always returns the most recently put value
for `k` fails on the code: after the nine puts of `trace9` (which put
`("e", "1")`) into `new 3`, `get "e"` returns `none`.  The descent takes
`child[idx] + 1` on the exact separator match at the root and lands in the
leaf holding only `"d"`. -/
theorem c1_get_misses_inserted_key :
    ("e", "1") ∈ trace9 ∧
    runPuts (BPTree.new 3) trace9 = .ok tree9 ∧
    BPTree.get tree9 "e" = .ok none := by
  refine ⟨?_, rfl, rfl⟩
  simp [trace9]

/-- C2: the claim that an exact separator match at index `idx` routes to
the child handle stored at position `idx + 1` fails on the code: in the
reachable tree `tree9`, the root (offset 13) has `child = [5, 14]` and
`keys = ["e"]`; searching `"e"` matches at `idx = 0` and the code continues
at offset `child[0] + 1 = 6`, not at `child[1] = 14` (the no-match half of
the claim, routing to `child[idx]`, is what the code does). -/
theorem c2_equality_routes_by_handle_arithmetic :
    tree9.root = 13 ∧
    tree9.nodes[13]? = some (.internal none [5, 14] ["e"]) ∧
    (∀ fuel, BPTree.searchLeafF tree9.nodes "e" (fuel + 1) 13 =
      BPTree.searchLeafF tree9.nodes "e" fuel 6) ∧
    (6 : Nat) ≠ 14 ∧
    BPTree.search_leaf tree9.nodes tree9.root "e" = .ok 4 ∧
    tree9.nodes[4]? = some (.leaf (some 6) (some 7) [⟨"d", "1"⟩]) := by
  exact ⟨rfl, rfl, fun fuel => rfl, by decide, rfl, rfl⟩

/-- C8: the claim that every `put`/`get` call terminates without panic
fails on the code: from `new 3`, after the four puts of `trace4`, the root
(offset 2) holds `child = [0, 1, 3]`, `keys = ["b", "c"]`; searching `"c"`
matches at `idx = 1` and continues at `child[1] + 1 = 2`, the root itself,
so the descent loops forever: `searchLeafF` yields `diverge` for every
fuel, and `get "c"` diverges. -/
theorem c8_get_can_loop_forever :
    runPuts (BPTree.new 3) trace4 = .ok tree4 ∧
    tree4.root = 2 ∧
    tree4.nodes[2]? = some (.internal none [0, 1, 3] ["b", "c"]) ∧
    (∀ fuel, BPTree.searchLeafF tree4.nodes "c" fuel 2 = .error .diverge) ∧
    BPTree.get tree4 "c" = .error .diverge := by
  refine ⟨rfl, rfl, rfl, ?_, rfl⟩
  intro fuel
  induction fuel with
  | zero => rfl
  | succ n ih =>
    rw [show BPTree.searchLeafF tree4.nodes "c" (n + 1) 2 =
      BPTree.searchLeafF tree4.nodes "c" n 2 from rfl]
    exact ih

/-- C9 counterexample: when the defensive variant check in the put path
fails (the target offset holds an `Internal` node, not a `Leaf`), the code
does not fail fast: `insert` returns normally with no panic, the arena
unchanged and the mutation skipped. -/
theorem c9_counterexample_silent_swallow :
    BPTree.insert [BPTreeNode.internal none [] []] ⟨"a", "v"⟩ 0 3 =
      .ok ([BPTreeNode.internal none [] []], none) := rfl

/-- C9 (amended): if the handle handed to the insertion step does not refer
to a `Leaf` node, the operation silently returns with the mutation skipped
and no root change — it is not an unconditional programming-error
assertion. -/
theorem c9_amended_swallows_bad_handle (nodes : List BPTreeNode) (kv : KV) (off order : Nat)
    (h : ∀ p nx kvs, nodes[off]? ≠ some (.leaf p nx kvs)) :
    BPTree.insert nodes kv off order = .ok (nodes, none) := by
  unfold BPTree.insert
  cases heq : nodes[off]? with
  | none => rfl
  | some n =>
    cases n with
    | internal p c k => rfl
    | leaf p nx kvs => exact absurd heq (h p nx kvs)

/-- C9 witness: the amended statement at a concrete arena. -/
theorem c9_amended_swallows_bad_handle_witness :
    BPTree.insert [BPTreeNode.internal none [] ["k"]] ⟨"b", "w"⟩ 0 5 =
      .ok ([BPTreeNode.internal none [] ["k"]], none) :=
  c9_amended_swallows_bad_handle _ _ _ _ (by intro p nx kvs h; simp at h)

/-- C3 counterexample: from `new 5`, after `c3trace` (whose last element
puts `("ab", "v1")` — the first of the claim's two calls on key "ab"), the
tree holds 7 entries; the follow-up `put "ab" "v2"` (the second call)
raises the entry count to 8, so the count is not unchanged by the second
call. -/
theorem c3_counterexample_second_put_grows_count :
    (do let t ← runPuts (BPTree.new 5) c3trace; pure (entryCount t) : M Nat) = .ok 7 ∧
    (do let t ← runPuts (BPTree.new 5) (c3trace ++ [("ab", "v2")]); pure (entryCount t) : M Nat) =
      .ok 8 := ⟨rfl, rfl⟩

/-! ### Helper lemmas: string comparison. -/

/-- Characters with equal code points are equal. -/
theorem charToNat_inj {a b : Char} (h : a.toNat = b.toNat) : a = b := by
  rcases a with ⟨⟨av, ah⟩, ap⟩
  rcases b with ⟨⟨bv, bh⟩, bp⟩
  simp [Char.toNat, UInt32.toNat] at h
  subst h
  rfl

/-- `charListCmp` returns `eq` exactly on equal lists. -/
theorem charListCmp_eq_iff : ∀ as bs : List Char, charListCmp as bs = .eq ↔ as = bs := by
  intro as
  induction as with
  | nil => intro bs; cases bs <;> simp [charListCmp]
  | cons a as ih =>
    intro bs
    cases bs with
    | nil => simp [charListCmp]
    | cons b bs =>
      simp only [charListCmp]
      by_cases h1 : a.toNat < b.toNat
      · simp [h1]
        intro h; subst h; omega
      · by_cases h2 : b.toNat < a.toNat
        · simp [h1, h2]
          intro h; subst h; omega
        · have hab : a = b := charToNat_inj (by omega)
          subst hab
          simp [h1, h2, ih bs]

/-- `strCmp` returns `eq` exactly on equal strings. -/
theorem strCmp_eq_iff (a b : String) : strCmp a b = .eq ↔ a = b := by
  unfold strCmp
  rw [charListCmp_eq_iff]
  constructor
  · intro h; cases a; cases b; exact congrArg String.mk h
  · intro h; subst h; rfl

/-- `strCmp` is reflexive. -/
theorem strCmp_self (a : String) : strCmp a a = .eq := (strCmp_eq_iff a a).mpr rfl

/-! ### Helper lemmas: `insert_non_full` as `upsertList`. -/

/-- `insert_non_full` computes `upsertList`. -/
theorem insert_non_full_eq_upsertList : ∀ (kvs : List KV) (kv : KV),
    BPTree.insert_non_full kvs kv = upsertList kv kvs := by
  intro kvs kv
  induction kvs with
  | nil => rfl
  | cons a rest ih =>
    unfold BPTree.insert_non_full upsertList
    cases h : strCmp a.key kv.key with
    | lt =>
      rw [← ih]
      unfold BPTree.insert_non_full
      simp only [bsearchBy, h]
      cases hb : bsearchBy KV.key kv.key rest with
      | found i =>
        simp only [List.getElem?_cons_succ]
        cases hg : rest[i]? with
        | none => rfl
        | some old => simp [List.set_cons_succ]
      | notFound i => simp [List.insertIdx_succ_cons]
    | eq =>
      have hk : a.key = kv.key := (strCmp_eq_iff _ _).mp h
      simp only [bsearchBy, h]
      simp [List.getElem?_cons_zero, hk, strCmp_self]
    | gt =>
      simp only [bsearchBy, h]
      rfl

/-- Re-upserting the same pair changes nothing. -/
theorem upsertList_idem (kv : KV) : ∀ l : List KV,
    upsertList kv (upsertList kv l) = upsertList kv l := by
  intro l
  induction l with
  | nil => simp [upsertList, strCmp_self]
  | cons a rest ih =>
    unfold upsertList
    cases h : strCmp a.key kv.key with
    | lt => simp only [upsertList, h, ih]
    | eq => simp only [upsertList, h]
    | gt => simp [upsertList, h, strCmp_self]

/-- Upserting key `k` twice with different values is the same as upserting
only the second value. -/
theorem upsertList_same_key (k v₁ v₂ : String) : ∀ l : List KV,
    upsertList ⟨k, v₂⟩ (upsertList ⟨k, v₁⟩ l) = upsertList ⟨k, v₂⟩ l := by
  intro l
  induction l with
  | nil => simp [upsertList, strCmp_self]
  | cons a rest ih =>
    unfold upsertList
    cases h : strCmp a.key k with
    | lt => simp only [upsertList, h, ih]
    | eq => simp only [upsertList, h]
    | gt => simp [upsertList, h, strCmp_self]

/-- The length after an upsert is the old length or one more. -/
theorem length_upsertList (kv : KV) : ∀ l : List KV,
    (upsertList kv l).length = l.length ∨ (upsertList kv l).length = l.length + 1 := by
  intro l
  induction l with
  | nil => right; rfl
  | cons a rest ih =>
    unfold upsertList
    cases h : strCmp a.key kv.key with
    | lt =>
      cases ih with
      | inl hl => left; simpa using hl
      | inr hr => right; simpa using hr
    | eq => left; rfl
    | gt => right; rfl

/-- The length after an upsert does not depend on the value upserted. -/
theorem length_upsertList_value_free (k v₁ v₂ : String) : ∀ l : List KV,
    (upsertList ⟨k, v₁⟩ l).length = (upsertList ⟨k, v₂⟩ l).length := by
  intro l
  induction l with
  | nil => rfl
  | cons a rest ih =>
    unfold upsertList
    cases h : strCmp a.key k with
    | lt => simpa using ih
    | eq => rfl
    | gt => rfl

/-- Binary search finds the pair just upserted. -/
theorem bsearch_upsertList (k v : String) : ∀ l : List KV,
    ∃ i, bsearchBy KV.key k (upsertList ⟨k, v⟩ l) = .found i ∧
      (upsertList ⟨k, v⟩ l)[i]? = some ⟨k, v⟩ := by
  intro l
  induction l with
  | nil => exact ⟨0, by simp [upsertList, bsearchBy, strCmp_self], rfl⟩
  | cons a rest ih =>
    unfold upsertList
    cases h : strCmp a.key k with
    | lt =>
      obtain ⟨i, hb, hg⟩ := ih
      exact ⟨i + 1, by simp [bsearchBy, h, hb], by simpa using hg⟩
    | eq =>
      have hk : a.key = k := (strCmp_eq_iff _ _).mp h
      refine ⟨0, by simp [bsearchBy, hk, strCmp_self], by simp [hk]⟩
    | gt =>
      exact ⟨0, by simp [bsearchBy, strCmp_self], rfl⟩

/-! ### Helper lemmas: leaf replacement does not disturb the descent. -/

/-- Replacing the node a terminating descent ends at by another non-internal
node leaves the descent's result unchanged: the walk only steps through
`Internal` nodes and stops at the first offset not holding one. -/
theorem searchLeafF_set_leaf (nodes : List BPTreeNode) (key : String) (ℓ : Nat)
    (nd : BPTreeNode) (hnd : ∀ p c k, nd ≠ .internal p c k)
    (hℓ : ∀ p c k, nodes[ℓ]? ≠ some (.internal p c k)) :
    ∀ fuel off, BPTree.searchLeafF nodes key fuel off = .ok ℓ →
      BPTree.searchLeafF (nodes.set ℓ nd) key fuel off = .ok ℓ := by
  intro fuel
  induction fuel with
  | zero => intro off h; simp [BPTree.searchLeafF] at h
  | succ n ih =>
    intro off h
    rw [BPTree.searchLeafF] at h ⊢
    by_cases hoff : ℓ = off
    · subst hoff
      rcases hset : (nodes.set ℓ nd)[ℓ]? with _ | m
      · simp [hset]
      · cases m with
        | leaf p nx kvs => simp [hset]
        | internal p c k =>
          exfalso
          by_cases hlt : ℓ < nodes.length
          · rw [List.getElem?_set_eq (a := nd) hlt] at hset
            exact hnd p c k (Option.some.inj hset)
          · rw [List.set_eq_of_length_le (by omega)] at hset
            exact hℓ p c k hset
    · rw [List.getElem?_set_ne hoff]
      rcases hg : nodes[off]? with _ | m
      · rw [hg] at h; exact h
      · rw [hg] at h
        cases m with
        | leaf p nx kvs => exact h
        | internal p c k =>
          dsimp only at h ⊢
          cases hb : bsearchBy id key k with
          | found idx =>
            rw [hb] at h
            dsimp only at h ⊢
            revert h
            cases hc : idxGet c idx with
            | error e =>
              intro h
              simp [Bind.bind, Except.bind] at h
            | ok cv =>
              intro h
              simp only [Bind.bind, Except.bind] at h ⊢
              exact ih _ h
          | notFound idx =>
            rw [hb] at h
            dsimp only at h ⊢
            revert h
            cases hc : idxGet c idx with
            | error e =>
              intro h
              simp [Bind.bind, Except.bind] at h
            | ok cv =>
              intro h
              simp only [Bind.bind, Except.bind] at h ⊢
              exact ih _ h

/-- Replacing a node by one contributing the same number of entries keeps
the total entry sum. -/
theorem sum_map_leafLen_set_congr : ∀ (nodes : List BPTreeNode) (i : Nat) (n₁ n₂ : BPTreeNode),
    leafLen n₁ = leafLen n₂ →
    ((nodes.set i n₁).map leafLen).sum = ((nodes.set i n₂).map leafLen).sum := by
  intro nodes
  induction nodes with
  | nil => intro i n₁ n₂ h; rfl
  | cons a rest ih =>
    intro i n₁ n₂ h
    cases i with
    | zero => simp [h]
    | succ j => simp [h]

/-- A put whose descent ends at a non-full leaf replaces exactly that
leaf's entry list by the upsert; nothing else changes. -/
theorem put_nonfull (t : BPTree) (k v : String) (ℓ : Nat) (p nx : Option Nat) (kvs : List KV)
    (hs : BPTree.search_leaf t.nodes t.root k = .ok ℓ)
    (hn : t.nodes[ℓ]? = some (.leaf p nx kvs))
    (hf : kvs.length ≠ t.order - 1) :
    BPTree.put t k v =
      .ok { t with nodes := t.nodes.set ℓ (.leaf p nx (upsertList ⟨k, v⟩ kvs)) } := by
  unfold BPTree.put
  rw [hs]
  simp only [Bind.bind, Except.bind]
  unfold BPTree.insert
  rw [hn]
  dsimp only
  rw [if_neg hf]
  simp only [insert_non_full_eq_upsertList]
  rfl

/-- C3 (amended): the claim's idempotence and update laws hold whenever
neither call meets a full target leaf (the counterexample shows they fail
when a call fills or re-targets a full leaf, since the full check precedes
the key lookup and the split re-routes the key): if the descent for `k`
ends at a leaf that is not full and would not be full after one insertion,
then `put k v` twice yields exactly the state of `put k v` once, and
`put k v₁` then `put k v₂` yields `get k = (k, v₂)` with the entry count
unchanged by the second call. -/
theorem c3_amended_nonfull_puts (t : BPTree) (k : String) (ℓ : Nat)
    (p nx : Option Nat) (kvs : List KV)
    (hs : BPTree.search_leaf t.nodes t.root k = .ok ℓ)
    (hn : t.nodes[ℓ]? = some (.leaf p nx kvs))
    (h1 : kvs.length ≠ t.order - 1)
    (h2 : kvs.length + 1 ≠ t.order - 1) :
    (∀ v, ∃ t₁, BPTree.put t k v = .ok t₁ ∧ BPTree.put t₁ k v = .ok t₁) ∧
    (∀ v₁ v₂, ∃ t₁ t₂, BPTree.put t k v₁ = .ok t₁ ∧ BPTree.put t₁ k v₂ = .ok t₂ ∧
      BPTree.get t₂ k = .ok (some ⟨k, v₂⟩) ∧ entryCount t₂ = entryCount t₁) := by
  have hlt : ℓ < t.nodes.length := by
    by_contra hc
    rw [List.getElem?_eq_none (by omega)] at hn
    exact absurd hn (by simp)
  have hput : ∀ v, BPTree.put t k v =
      .ok { t with nodes := t.nodes.set ℓ (.leaf p nx (upsertList ⟨k, v⟩ kvs)) } :=
    fun v => put_nonfull t k v ℓ p nx kvs hs hn h1
  have hs' : ∀ (q : Option Nat) (m : Option Nat) (L : List KV),
      BPTree.search_leaf (t.nodes.set ℓ (.leaf q m L)) t.root k = .ok ℓ := by
    intro q m L
    have hstep := searchLeafF_set_leaf t.nodes k ℓ (.leaf q m L)
      (by intro a b c hcon; cases hcon)
      (by intro a b c hcon; rw [hn] at hcon; simp at hcon)
      (t.nodes.length + 1) t.root hs
    unfold BPTree.search_leaf
    rw [List.length_set]
    exact hstep
  have hnode : ∀ (L : List KV),
      (t.nodes.set ℓ (BPTreeNode.leaf p nx L))[ℓ]? = some (.leaf p nx L) :=
    fun L => List.getElem?_set_eq hlt
  have hf' : ∀ v, (upsertList ⟨k, v⟩ kvs).length ≠ t.order - 1 := by
    intro v
    rcases length_upsertList ⟨k, v⟩ kvs with hL | hL <;> rw [hL] <;> assumption
  constructor
  · intro v
    refine ⟨{ t with nodes := t.nodes.set ℓ (.leaf p nx (upsertList ⟨k, v⟩ kvs)) },
      hput v, ?_⟩
    have hsecond := put_nonfull
      { t with nodes := t.nodes.set ℓ (.leaf p nx (upsertList ⟨k, v⟩ kvs)) }
      k v ℓ p nx (upsertList ⟨k, v⟩ kvs) (hs' p nx _) (hnode _) (hf' v)
    rw [hsecond]
    dsimp only
    rw [List.set_set, upsertList_idem]
  · intro v₁ v₂
    refine ⟨{ t with nodes := t.nodes.set ℓ (.leaf p nx (upsertList ⟨k, v₁⟩ kvs)) },
      { t with nodes := t.nodes.set ℓ (.leaf p nx (upsertList ⟨k, v₂⟩ kvs)) },
      hput v₁, ?_, ?_, ?_⟩
    · have hsecond := put_nonfull
        { t with nodes := t.nodes.set ℓ (.leaf p nx (upsertList ⟨k, v₁⟩ kvs)) }
        k v₂ ℓ p nx (upsertList ⟨k, v₁⟩ kvs) (hs' p nx _) (hnode _) (hf' v₁)
      rw [hsecond]
      dsimp only
      rw [List.set_set, upsertList_same_key]
    · unfold BPTree.get
      dsimp only
      rw [hs' p nx (upsertList ⟨k, v₂⟩ kvs)]
      simp only [Bind.bind, Except.bind]
      rw [hnode (upsertList ⟨k, v₂⟩ kvs)]
      obtain ⟨i, hbi, hgi⟩ := bsearch_upsertList k v₂ kvs
      dsimp only
      rw [hbi]
      dsimp only
      rw [hgi]
    · unfold entryCount
      dsimp only
      exact sum_map_leafLen_set_congr t.nodes ℓ _ _
        (by simpa [leafLen] using (length_upsertList_value_free k v₂ v₁ kvs))

/-- C3 witness: the amended statement applied to the fresh order-5 tree
(one empty root leaf, not full) and key "a". -/
theorem c3_amended_nonfull_puts_witness :
    ∃ t₁, BPTree.put (BPTree.new 5) "a" "x" = .ok t₁ ∧ BPTree.put t₁ "a" "x" = .ok t₁ :=
  (c3_amended_nonfull_puts (BPTree.new 5) "a" 0 none none [] rfl rfl
    (by decide) (by decide)).1 "x"

/-! ### Helper lemmas: arena mutations preserve every leaf's `next`/`kvs`. -/

/-- An index holding a leaf is in bounds. -/
theorem lt_length_of_getElem? {nodes : List BPTreeNode} {i : Nat} {x : BPTreeNode}
    (h : nodes[i]? = some x) : i < nodes.length := by
  by_contra hc
  rw [List.getElem?_eq_none (by omega)] at h
  exact absurd h (by simp)

/-- Writing at an index that does not hold a leaf keeps every leaf entry. -/
theorem leafView_set (nodes : List BPTreeNode) (j : Nat) (nd : BPTreeNode)
    (hj : ∀ (q m : Option Nat) (L : List KV), nodes[j]? ≠ some (.leaf q m L)) :
    ∀ (i : Nat) (q m : Option Nat) (L : List KV),
      nodes[i]? = some (.leaf q m L) → (nodes.set j nd)[i]? = some (.leaf q m L) := by
  intro i q m L hi
  rcases eq_or_ne j i with hij | hij
  · exact absurd (hij ▸ hi) (hj q m L)
  · rw [List.getElem?_set_ne hij]
    exact hi

/-- Appending nodes keeps every existing entry. -/
theorem leafView_append (nodes l : List BPTreeNode) (i : Nat) (x : BPTreeNode)
    (h : nodes[i]? = some x) : (nodes ++ l)[i]? = some x := by
  rw [List.getElem?_append_left (lt_length_of_getElem? h)]
  exact h

/-- `ucpAux` (the `update_child_parent` loop) only rewrites parent fields:
every leaf keeps its `next` and `kvs` (the parent handle may change). -/
theorem ucpAux_leaf_view (pidx : Nat) : ∀ (cs : List Nat) (nodes nodes' : List BPTreeNode),
    BPTree.ucpAux pidx cs nodes = .ok nodes' →
    ∀ (i : Nat) (q m : Option Nat) (L : List KV), nodes[i]? = some (.leaf q m L) →
      ∃ q', nodes'[i]? = some (.leaf q' m L) := by
  intro cs
  induction cs with
  | nil =>
    intro nodes nodes' hok i q m L hi
    cases hok
    exact ⟨q, hi⟩
  | cons c rest ih =>
    intro nodes nodes' hok i q m L hi
    rw [BPTree.ucpAux] at hok
    revert hok
    cases hc : nodes[c]? with
    | none => intro hok; cases hok
    | some n =>
      intro hok
      rcases eq_or_ne c i with hci | hci
      · rw [← hci] at hi
        rw [hc] at hi
        cases hi
        rw [← hci]
        refine ih _ _ hok c (some pidx) m L ?_
        rw [List.getElem?_set_eq (lt_length_of_getElem? hc)]
        rfl
      · refine ih _ _ hok i q m L ?_
        rw [List.getElem?_set_ne hci]
        exact hi

/-- `update_child_parent` only rewrites parent fields of leaves. -/
theorem update_child_parent_leaf_view (nodes nodes' : List BPTreeNode) (j : Nat)
    (hok : BPTree.update_child_parent nodes j = .ok nodes') :
    ∀ (i : Nat) (q m : Option Nat) (L : List KV), nodes[i]? = some (.leaf q m L) →
      ∃ q', nodes'[i]? = some (.leaf q' m L) := by
  intro i q m L hi
  rw [BPTree.update_child_parent] at hok
  revert hok
  cases hj : nodes[j]? with
  | none => intro hok; cases hok
  | some n =>
    cases n with
    | leaf a b c =>
      intro hok
      cases hok
      exact ⟨q, hi⟩
    | internal a b c =>
      intro hok
      exact ucpAux_leaf_view j b nodes nodes' hok i q m L hi

/-- `splitNodesF` (the split-propagation loop) never changes any existing
leaf's `next` or `kvs`: it only rewrites internal nodes, appends new nodes
and re-points parent handles. -/
theorem splitNodesF_leaf_view (order : Nat) : ∀ (fuel : Nat) (nodes : List BPTreeNode)
    (rc : Option Nat) (rk : Option String) (cp : Option Nat) (nodes' : List BPTreeNode)
    (r : Option Nat),
    BPTree.splitNodesF order fuel nodes rc rk cp = .ok (nodes', r) →
    ∀ (i : Nat) (q m : Option Nat) (L : List KV), nodes[i]? = some (.leaf q m L) →
      ∃ q', nodes'[i]? = some (.leaf q' m L) := by
  intro fuel
  induction fuel with
  | zero =>
    intro nodes rc rk cp nodes' r hok
    rw [BPTree.splitNodesF.eq_def] at hok
    cases hok
  | succ n ih =>
    intro nodes rc rk cp nodes' r hok i q m L hi
    rw [BPTree.splitNodesF.eq_def] at hok
    dsimp only at hok
    cases rc with
    | none => cases hok; exact ⟨q, hi⟩
    | some rcOff =>
    cases cp with
    | none => cases hok; exact ⟨q, hi⟩
    | some poff =>
    dsimp only at hok
    cases hpoff : nodes[poff]? with
    | none => rw [hpoff] at hok; dsimp only at hok; cases hok; exact ⟨q, hi⟩
    | some pnode =>
    cases pnode with
    | leaf a b c => rw [hpoff] at hok; dsimp only at hok; cases hok; exact ⟨q, hi⟩
    | internal parent child keys =>
    rw [hpoff] at hok
    dsimp only at hok
    have hpnotleaf : ∀ (q2 m2 : Option Nat) (L2 : List KV),
        nodes[poff]? ≠ some (.leaf q2 m2 L2) := by
      intro q2 m2 L2 hcon
      rw [hpoff] at hcon
      cases hcon
    by_cases hfull : keys.length = order - 1
    · rw [if_pos hfull] at hok
      simp only [Bind.bind, Except.bind] at hok
      cases hck : idxGet keys (order / 2) with
      | error e => rw [hck] at hok; cases hok
      | ok centerKey =>
      rw [hck] at hok
      dsimp only at hok
      cases parent with
      | none =>
        have hp1 : (nodes ++ [BPTreeNode.internal none [poff] []])[poff]? =
            some (BPTreeNode.internal none child keys) := by
          rw [List.getElem?_append_left (lt_length_of_getElem? hpoff)]
          exact hpoff
        rw [hp1] at hok
        dsimp only at hok
        split at hok
        · cases hok
        · rename_i pr hsp
          cases rk with
          | none =>
            cases hok
            refine ⟨q, ?_⟩
            refine leafView_set _ poff _ ?_ i q m L (leafView_append nodes _ i _ hi)
            intro q2 m2 L2 hcon
            rw [hp1] at hcon
            cases hcon
          | some key =>
            dsimp only at hok
            split at hok
            · cases hok
            · rename_i nodes4 hucp
              have h1 := leafView_append nodes [BPTreeNode.internal none [poff] []] i _ hi
              have h2 : ((nodes ++ [BPTreeNode.internal none [poff] []]).set poff pr.1)[i]? =
                  some (BPTreeNode.leaf q m L) := by
                refine leafView_set _ poff _ ?_ i q m L h1
                intro q2 m2 L2 hcon
                rw [hp1] at hcon
                cases hcon
              have h3 := leafView_append _
                [(pr.2.set_parent_offset nodes.length).push_data rcOff key] i _ h2
              obtain ⟨q4, h4⟩ := update_child_parent_leaf_view _ nodes4 _ hucp i q m L h3
              exact ih _ _ _ _ _ _ hok i q4 m L h4
      | some parentOff =>
        dsimp only at hok
        split at hok
        · cases hok
        · rename_i pr hsp
          cases rk with
          | none =>
            cases hok
            exact ⟨q, leafView_set nodes poff _ hpnotleaf i q m L hi⟩
          | some key =>
            dsimp only at hok
            split at hok
            · cases hok
            · rename_i nodes3 hucp
              have h2 := leafView_set nodes poff pr.1 hpnotleaf i q m L hi
              have h3 := leafView_append _
                [(pr.2.set_parent_offset parentOff).push_data rcOff key] i _ h2
              obtain ⟨q3, h4⟩ := update_child_parent_leaf_view _ nodes3 _ hucp i q m L h3
              exact ih _ _ _ _ _ _ hok i q3 m L h4
    · rw [if_neg hfull] at hok
      cases rk with
      | none => cases hok; exact ⟨q, hi⟩
      | some key =>
      dsimp only at hok
      cases parent with
      | none =>
        cases hok
        exact ⟨q, leafView_set nodes poff _ hpnotleaf i q m L hi⟩
      | some np =>
        refine ih _ _ _ _ _ _ hok i q m L ?_
        exact leafView_set nodes poff _ hpnotleaf i q m L hi

/-- C6: when put targets a leaf holding exactly `order - 1` entries, the
leaf is split at `len / 2`: the old handle keeps the lower half and its
`next` becomes the freshly appended leaf's handle (the old arena length);
the new leaf holds the upper half and inherits the old leaf's previous
`next`; the new leaf's first key is the separator, captured before
placement; the incoming entry goes to the old leaf exactly when its key is
strictly smaller than the separator, otherwise to the new leaf. -/
theorem c6_full_leaf_split (t : BPTree) (k v : String) (ℓ : Nat)
    (p nx : Option Nat) (kvs : List KV) (t' : BPTree)
    (hs : BPTree.search_leaf t.nodes t.root k = .ok ℓ)
    (hn : t.nodes[ℓ]? = some (.leaf p nx kvs))
    (hfull : kvs.length = t.order - 1)
    (horder : 3 ≤ t.order)
    (hok : BPTree.put t k v = .ok t') :
    ∃ kv₀ p₁ p₂,
      (kvs.drop (kvs.length / 2))[0]? = some kv₀ ∧
      t'.nodes[ℓ]? = some (.leaf p₁ (some t.nodes.length)
        (if strCmp kv₀.key k = .gt then upsertList ⟨k, v⟩ (kvs.take (kvs.length / 2))
         else kvs.take (kvs.length / 2))) ∧
      t'.nodes[t.nodes.length]? = some (.leaf p₂ nx
        (if strCmp kv₀.key k = .gt then kvs.drop (kvs.length / 2)
         else upsertList ⟨k, v⟩ (kvs.drop (kvs.length / 2)))) := by
  have hlt : ℓ < t.nodes.length := lt_length_of_getElem? hn
  have hupper : 1 ≤ (kvs.drop (kvs.length / 2)).length := by
    rw [List.length_drop]
    omega
  obtain ⟨kv₀, hu⟩ : ∃ kv₀, (kvs.drop (kvs.length / 2))[0]? = some kv₀ := by
    cases hu0 : (kvs.drop (kvs.length / 2))[0]? with
    | none =>
      exfalso
      have := List.getElem?_eq_none_iff.mp hu0
      omega
    | some kv₀ => exact ⟨kv₀, rfl⟩
  refine ⟨kv₀, ?_⟩
  unfold BPTree.put at hok
  rw [hs] at hok
  simp only [Bind.bind, Except.bind] at hok
  unfold BPTree.insert at hok
  rw [hn] at hok
  dsimp only at hok
  rw [if_pos hfull] at hok
  simp only [BPTreeNode.split] at hok
  rw [BPTree.insert_full.eq_def] at hok
  simp only [List.length_append, List.length_set, List.length_cons, List.length_nil] at hok
  rw [if_neg (by omega)] at hok
  rw [if_neg (by omega)] at hok
  rw [if_neg (by omega : ¬ ¬ ℓ < t.nodes.length)] at hok
  have he1 : (t.nodes.set ℓ (BPTreeNode.leaf p nx (List.take (kvs.length / 2) kvs)) ++
      [BPTreeNode.leaf p none (List.drop (kvs.length / 2) kvs)])[ℓ]? =
      some (BPTreeNode.leaf p nx (List.take (kvs.length / 2) kvs)) := by
    rw [List.getElem?_append_left (by simpa using hlt)]
    exact List.getElem?_set_eq hlt
  have he2 : (t.nodes.set ℓ (BPTreeNode.leaf p nx (List.take (kvs.length / 2) kvs)) ++
      [BPTreeNode.leaf p none (List.drop (kvs.length / 2) kvs)])[t.nodes.length]? =
      some (BPTreeNode.leaf p none (List.drop (kvs.length / 2) kvs)) := by
    have hc := List.getElem?_concat_length
      (t.nodes.set ℓ (BPTreeNode.leaf p nx (List.take (kvs.length / 2) kvs)))
      (BPTreeNode.leaf p none (List.drop (kvs.length / 2) kvs))
    rw [List.length_set] at hc
    exact hc
  rw [he1, he2] at hok
  dsimp only at hok
  rw [hu] at hok
  dsimp only at hok
  simp only [apply_ite Prod.fst, apply_ite Prod.snd, insert_non_full_eq_upsertList] at hok
  cases p with
  | none =>
    dsimp only at hok
    set LO := if strCmp kv₀.key k = Ordering.gt then
        upsertList { key := k, value := v } (List.take (kvs.length / 2) kvs)
      else List.take (kvs.length / 2) kvs with hLO
    set HI := if strCmp kv₀.key k = Ordering.gt then List.drop (kvs.length / 2) kvs
      else upsertList { key := k, value := v } (List.drop (kvs.length / 2) kvs) with hHI
    set N1 := t.nodes.set ℓ (BPTreeNode.leaf none nx (List.take (kvs.length / 2) kvs)) ++
      [BPTreeNode.leaf none none (List.drop (kvs.length / 2) kvs)] with hN1
    have hN1len : N1.length = t.nodes.length + 1 := by simp [hN1]
    set N2 := (N1.set ℓ (BPTreeNode.leaf none (some t.nodes.length) LO)).set t.nodes.length
      (BPTreeNode.leaf none nx HI) ++ [BPTreeNode.internal none [ℓ, t.nodes.length] [kv₀.key]] with hN2
    have hN2len : N2.length = t.nodes.length + 2 := by simp [hN2, hN1]
    have he3 : N2[ℓ]? = some (BPTreeNode.leaf none (some t.nodes.length) LO) := by
      rw [hN2]
      rw [List.getElem?_append_left (by simp [hN1len]; omega)]
      rw [List.getElem?_set_ne (by omega)]
      rw [List.getElem?_set_eq (by rw [hN1len]; omega)]
    have he4 : N2[t.nodes.length]? = some (BPTreeNode.leaf none nx HI) := by
      rw [hN2]
      rw [List.getElem?_append_left (by simp [hN1len])]
      rw [List.getElem?_set_eq (by simp [hN1len])]
    rw [he3, he4] at hok
    dsimp only at hok
    simp only [BPTree.setLeafParent] at hok
    cases hok
    dsimp only
    refine ⟨some (t.nodes.length + (0 + 1)), some (t.nodes.length + (0 + 1)), hu, ?_, ?_⟩
    · rw [List.getElem?_set_ne (by omega)]
      rw [List.getElem?_set_eq (by rw [hN2len]; omega)]
    · rw [List.getElem?_set_eq (by simp [hN2len])]
  | some poff =>
    dsimp only at hok
    set LO := if strCmp kv₀.key k = Ordering.gt then
        upsertList { key := k, value := v } (List.take (kvs.length / 2) kvs)
      else List.take (kvs.length / 2) kvs with hLO
    set HI := if strCmp kv₀.key k = Ordering.gt then List.drop (kvs.length / 2) kvs
      else upsertList { key := k, value := v } (List.drop (kvs.length / 2) kvs) with hHI
    set N1 := t.nodes.set ℓ (BPTreeNode.leaf (some poff) nx (List.take (kvs.length / 2) kvs)) ++
      [BPTreeNode.leaf (some poff) none (List.drop (kvs.length / 2) kvs)] with hN1
    have hN1len : N1.length = t.nodes.length + 1 := by simp [hN1]
    set N2 := (N1.set ℓ (BPTreeNode.leaf (some poff) (some t.nodes.length) LO)).set t.nodes.length
      (BPTreeNode.leaf (some poff) nx HI) with hN2
    have hv1 : N2[ℓ]? = some (BPTreeNode.leaf (some poff) (some t.nodes.length) LO) := by
      rw [hN2]
      rw [List.getElem?_set_ne (by omega)]
      rw [List.getElem?_set_eq (by rw [hN1len]; omega)]
    have hv2 : N2[t.nodes.length]? = some (BPTreeNode.leaf (some poff) nx HI) := by
      rw [hN2]
      rw [List.getElem?_set_eq (by simp [hN1len])]
    split at hok
    · cases hok
    · rename_i pr hsn
      cases hok
      dsimp only
      obtain ⟨q1, hq1⟩ := splitNodesF_leaf_view t.order _ _ _ _ _ pr.1 pr.2 hsn ℓ _ _ _ hv1
      obtain ⟨q2, hq2⟩ :=
        splitNodesF_leaf_view t.order _ _ _ _ _ pr.1 pr.2 hsn t.nodes.length _ _ _ hv2
      exact ⟨q1, q2, hu, hq1, hq2⟩

/-- C6 witness: the theorem at the order-3 tree whose root leaf is full
with entries "a", "b", putting "c": the old leaf (handle 0) keeps `["a"]`
with `next = some 1`, the new leaf (handle 1) holds `["b", "c"]` — "c" is
not below the separator "b", so it lands in the new (right) leaf. -/
theorem c6_full_leaf_split_witness :
    ∃ kv₀ p₁ p₂,
      (([⟨"a", "1"⟩, ⟨"b", "1"⟩] : List KV).drop (([⟨"a", "1"⟩, ⟨"b", "1"⟩] : List KV).length / 2))[0]? =
        some kv₀ ∧
      c6treeAfter.nodes[0]? = some (.leaf p₁ (some c6tree.nodes.length)
        (if strCmp kv₀.key "c" = .gt then
          upsertList ⟨"c", "1"⟩ (([⟨"a", "1"⟩, ⟨"b", "1"⟩] : List KV).take
            (([⟨"a", "1"⟩, ⟨"b", "1"⟩] : List KV).length / 2))
         else ([⟨"a", "1"⟩, ⟨"b", "1"⟩] : List KV).take
            (([⟨"a", "1"⟩, ⟨"b", "1"⟩] : List KV).length / 2))) ∧
      c6treeAfter.nodes[c6tree.nodes.length]? = some (.leaf p₂ none
        (if strCmp kv₀.key "c" = .gt then
          ([⟨"a", "1"⟩, ⟨"b", "1"⟩] : List KV).drop (([⟨"a", "1"⟩, ⟨"b", "1"⟩] : List KV).length / 2)
         else upsertList ⟨"c", "1"⟩ (([⟨"a", "1"⟩, ⟨"b", "1"⟩] : List KV).drop
            (([⟨"a", "1"⟩, ⟨"b", "1"⟩] : List KV).length / 2)))) :=
  c6_full_leaf_split c6tree "c" "1" 0 none none [⟨"a", "1"⟩, ⟨"b", "1"⟩] c6treeAfter
    rfl rfl rfl (by decide) rfl

/-! ### Helper lemmas: the capacity/alignment invariant (`arenaOk`). -/

/-- A binary-search insertion point never exceeds the length. -/
theorem bsearchBy_notFound_le (f : α → String) (key : String) :
    ∀ (l : List α) (i : Nat), bsearchBy f key l = .notFound i → i ≤ l.length := by
  intro l
  induction l with
  | nil => intro i h; cases h; simp
  | cons a rest ih =>
    intro i h
    rw [bsearchBy] at h
    revert h
    cases strCmp (f a) key with
    | eq => intro h; cases h
    | gt => intro h; cases h; simp
    | lt =>
      cases hb : bsearchBy f key rest with
      | found j => intro h; cases h
      | notFound j =>
        intro h
        cases h
        have := ih j hb
        simp only [List.length_cons]
        omega

/-- The upsert adds at most one entry. -/
theorem length_upsertList_le (kv : KV) (l : List KV) :
    (upsertList kv l).length ≤ l.length + 1 := by
  rcases length_upsertList kv l with h | h <;> omega

/-- Setting a parent handle does not change a node's payload sizes. -/
theorem nodeOk_set_parent_offset (order : Nat) (n : BPTreeNode) (i : Nat)
    (h : nodeOk order n) : nodeOk order (n.set_parent_offset i) := by
  cases n <;> simpa [BPTreeNode.set_parent_offset, nodeOk] using h

/-- `setLeafParent` does not change a node's payload sizes. -/
theorem nodeOk_setLeafParent (order : Nat) (n : BPTreeNode) (i : Nat)
    (h : nodeOk order n) : nodeOk order (BPTree.setLeafParent n i) := by
  cases n <;> simpa [BPTree.setLeafParent, nodeOk] using h

/-- `push_data` on an aligned internal node with a free slot yields an
aligned internal node within capacity. -/
theorem nodeOk_push_data (order : Nat) (p : Option Nat) (child : List Nat)
    (keys : List String) (nc : Nat) (key : String)
    (halign : child.length = keys.length + 1)
    (hcap : keys.length + 1 ≤ order - 1) :
    nodeOk order ((BPTreeNode.internal p child keys).push_data nc key) := by
  rw [BPTreeNode.push_data]
  cases hb : bsearchBy id key keys with
  | found j => exact ⟨halign, by omega⟩
  | notFound j =>
    have hj : j ≤ keys.length := bsearchBy_notFound_le id key keys j hb
    refine ⟨?_, ?_⟩
    · rw [List.length_insertIdx (j + 1) child (by omega), List.length_insertIdx j keys hj]
      omega
    · rw [List.length_insertIdx j keys hj]
      omega

/-- Members of an arena with `arenaOk` are `nodeOk`. -/
theorem arenaOk_get (order : Nat) (nodes : List BPTreeNode) (i : Nat) (n : BPTreeNode)
    (ha : arenaOk order nodes) (h : nodes[i]? = some n) : nodeOk order n :=
  ha n (List.getElem?_mem h)

/-- Replacing a node by a sound one preserves `arenaOk`. -/
theorem arenaOk_set (order : Nat) (nodes : List BPTreeNode) (i : Nat) (nd : BPTreeNode)
    (ha : arenaOk order nodes) (hnd : nodeOk order nd) : arenaOk order (nodes.set i nd) := by
  intro n hn
  rcases List.mem_or_eq_of_mem_set hn with h | h
  · exact ha n h
  · exact h ▸ hnd

/-- Appending a sound node preserves `arenaOk`. -/
theorem arenaOk_append (order : Nat) (nodes : List BPTreeNode) (nd : BPTreeNode)
    (ha : arenaOk order nodes) (hnd : nodeOk order nd) : arenaOk order (nodes ++ [nd]) := by
  intro n hn
  rcases List.mem_append.mp hn with h | h
  · exact ha n h
  · rw [List.mem_singleton.mp h]
    exact hnd

/-- The `update_child_parent` loop preserves `arenaOk`. -/
theorem ucpAux_arenaOk (order pidx : Nat) : ∀ (cs : List Nat) (nodes nodes' : List BPTreeNode),
    BPTree.ucpAux pidx cs nodes = .ok nodes' → arenaOk order nodes → arenaOk order nodes' := by
  intro cs
  induction cs with
  | nil => intro nodes nodes' hok ha; cases hok; exact ha
  | cons c rest ih =>
    intro nodes nodes' hok ha
    rw [BPTree.ucpAux] at hok
    revert hok
    cases hc : nodes[c]? with
    | none => intro hok; cases hok
    | some n =>
      intro hok
      refine ih _ _ hok ?_
      exact arenaOk_set order nodes c _ ha
        (nodeOk_set_parent_offset order n pidx (arenaOk_get order nodes c n ha hc))

/-- `update_child_parent` preserves `arenaOk`. -/
theorem update_child_parent_arenaOk (order : Nat) (nodes nodes' : List BPTreeNode) (j : Nat)
    (hok : BPTree.update_child_parent nodes j = .ok nodes') (ha : arenaOk order nodes) :
    arenaOk order nodes' := by
  rw [BPTree.update_child_parent] at hok
  revert hok
  cases hj : nodes[j]? with
  | none => intro hok; cases hok
  | some n =>
    cases n with
    | leaf a b c => intro hok; cases hok; exact ha
    | internal a b c => intro hok; exact ucpAux_arenaOk order j b nodes nodes' hok ha

/-- Explicit form of an `Internal` split when the `split_off` positions are
in range: children split at `child.len / 2 + 1`, keys at `child.len / 2`,
with the boundary key dropped from both halves. -/
theorem internal_split_eq (p : Option Nat) (child : List Nat) (keys : List String)
    (h1 : child.length / 2 ≤ keys.length)
    (h2 : child.length / 2 + 1 ≤ child.length)
    (h3 : 1 ≤ keys.length - child.length / 2) :
    (BPTreeNode.internal p child keys).split =
      .ok (BPTreeNode.internal p (child.take (child.length / 2 + 1)) (keys.take (child.length / 2)),
           BPTreeNode.internal p (child.drop (child.length / 2 + 1))
             ((keys.drop (child.length / 2)).drop 1)) := by
  rw [BPTreeNode.split]
  unfold splitOff
  rw [if_pos h1, if_pos h2]
  simp only [Bind.bind, Except.bind]
  rw [if_pos (by rw [List.length_drop]; omega)]

/-- The split-propagation loop preserves the capacity/alignment invariant
of the arena (for a normalized order, i.e. `3 ≤ order`). -/
theorem splitNodesF_arenaOk (order : Nat) (h3 : 3 ≤ order) : ∀ (fuel : Nat)
    (nodes : List BPTreeNode) (rc : Option Nat) (rk : Option String) (cp : Option Nat)
    (nodes' : List BPTreeNode) (r : Option Nat),
    BPTree.splitNodesF order fuel nodes rc rk cp = .ok (nodes', r) →
    arenaOk order nodes → arenaOk order nodes' := by
  intro fuel
  induction fuel with
  | zero =>
    intro nodes rc rk cp nodes' r hok
    rw [BPTree.splitNodesF.eq_def] at hok
    cases hok
  | succ n ih =>
    intro nodes rc rk cp nodes' r hok ha
    rw [BPTree.splitNodesF.eq_def] at hok
    dsimp only at hok
    cases rc with
    | none => cases hok; exact ha
    | some rcOff =>
    cases cp with
    | none => cases hok; exact ha
    | some poff =>
    dsimp only at hok
    cases hpoff : nodes[poff]? with
    | none => rw [hpoff] at hok; dsimp only at hok; cases hok; exact ha
    | some pnode =>
    cases pnode with
    | leaf a b c => rw [hpoff] at hok; dsimp only at hok; cases hok; exact ha
    | internal parent child keys =>
    rw [hpoff] at hok
    dsimp only at hok
    have hpok := arenaOk_get order nodes poff _ ha hpoff
    obtain ⟨halign, hcap⟩ : child.length = keys.length + 1 ∧ keys.length ≤ order - 1 := hpok
    by_cases hfull : keys.length = order - 1
    · rw [if_pos hfull] at hok
      simp only [Bind.bind, Except.bind] at hok
      cases hck : idxGet keys (order / 2) with
      | error e => rw [hck] at hok; cases hok
      | ok centerKey =>
      rw [hck] at hok
      dsimp only at hok
      cases parent with
      | none =>
        have hp1 : (nodes ++ [BPTreeNode.internal none [poff] []])[poff]? =
            some (BPTreeNode.internal none child keys) := by
          rw [List.getElem?_append_left (lt_length_of_getElem? hpoff)]
          exact hpoff
        rw [hp1] at hok
        dsimp only at hok
        rw [show (BPTreeNode.internal none child keys).set_parent_offset nodes.length =
          BPTreeNode.internal (some nodes.length) child keys from rfl] at hok
        rw [internal_split_eq (some nodes.length) child keys (by omega) (by omega) (by omega)] at hok
        dsimp only at hok
        have ha1 : arenaOk order (nodes ++ [BPTreeNode.internal none [poff] []]) :=
          arenaOk_append order nodes _ ha (by exact ⟨rfl, by simp⟩)
        have ha2 : arenaOk order ((nodes ++ [BPTreeNode.internal none [poff] []]).set poff
            (BPTreeNode.internal (some nodes.length) (child.take (child.length / 2 + 1))
              (keys.take (child.length / 2)))) := by
          refine arenaOk_set order _ poff _ ha1 ?_
          refine ⟨?_, ?_⟩ <;> simp [List.length_take] <;> omega
        cases rk with
        | none => cases hok; exact ha2
        | some key =>
        dsimp only at hok
        split at hok
        · cases hok
        · rename_i nodes4 hucp
          refine ih _ _ _ _ _ _ hok ?_
          refine update_child_parent_arenaOk order _ _ _ hucp ?_
          refine arenaOk_append order _ _ ha2 ?_
          rw [show (BPTreeNode.internal (some nodes.length) (child.drop (child.length / 2 + 1))
              ((keys.drop (child.length / 2)).drop 1)).set_parent_offset nodes.length =
            BPTreeNode.internal (some nodes.length) (child.drop (child.length / 2 + 1))
              ((keys.drop (child.length / 2)).drop 1) from rfl]
          refine nodeOk_push_data order _ _ _ _ _ ?_ ?_ <;>
            simp [List.length_drop] <;> omega
      | some parentOff =>
        rw [internal_split_eq (some parentOff) child keys (by omega) (by omega) (by omega)] at hok
        dsimp only at hok
        have ha2 : arenaOk order (nodes.set poff
            (BPTreeNode.internal (some parentOff) (child.take (child.length / 2 + 1))
              (keys.take (child.length / 2)))) := by
          refine arenaOk_set order _ poff _ ha ?_
          refine ⟨?_, ?_⟩ <;> simp [List.length_take] <;> omega
        cases rk with
        | none => cases hok; exact ha2
        | some key =>
        dsimp only at hok
        split at hok
        · cases hok
        · rename_i nodes3 hucp
          refine ih _ _ _ _ _ _ hok ?_
          refine update_child_parent_arenaOk order _ _ _ hucp ?_
          refine arenaOk_append order _ _ ha2 ?_
          rw [show (BPTreeNode.internal (some parentOff) (child.drop (child.length / 2 + 1))
              ((keys.drop (child.length / 2)).drop 1)).set_parent_offset parentOff =
            BPTreeNode.internal (some parentOff) (child.drop (child.length / 2 + 1))
              ((keys.drop (child.length / 2)).drop 1) from rfl]
          refine nodeOk_push_data order _ _ _ _ _ ?_ ?_ <;>
            simp [List.length_drop] <;> omega
    · rw [if_neg hfull] at hok
      cases rk with
      | none => cases hok; exact ha
      | some key =>
      dsimp only at hok
      have ha1 : arenaOk order (nodes.set poff
          ((BPTreeNode.internal parent child keys).push_data rcOff key)) := by
        refine arenaOk_set order _ poff _ ha ?_
        exact nodeOk_push_data order _ _ _ _ _ halign (by omega)
      cases parent with
      | none => cases hok; exact ha1
      | some np => exact ih _ _ _ _ _ _ hok ha1

/-- Whether or not the branch upserts, the length grows by at most one. -/
theorem ite_upsert_length_le (c : Prop) [Decidable c] (kv : KV) (l : List KV) :
    (if c then upsertList kv l else l).length ≤ l.length + 1 := by
  split
  · exact length_upsertList_le kv l
  · omega

/-- `insert_full` preserves the invariant when the two leaf halves can
absorb one more entry (true after any split for a normalized order). -/
theorem insert_full_arenaOk (order : Nat) (h3 : 3 ≤ order)
    (nodes : List BPTreeNode) (kv : KV) (oldOff newOff : Nat)
    (nodes' : List BPTreeNode) (r : Option Nat)
    (hok : BPTree.insert_full nodes kv oldOff newOff order = .ok (nodes', r))
    (ha : arenaOk order nodes)
    (hold : ∀ (p nx : Option Nat) (kvs : List KV),
      nodes[oldOff]? = some (.leaf p nx kvs) → kvs.length + 1 ≤ order - 1)
    (hnew : ∀ (p nx : Option Nat) (kvs : List KV),
      nodes[newOff]? = some (.leaf p nx kvs) → kvs.length + 1 ≤ order - 1) :
    arenaOk order nodes' := by
  rw [BPTree.insert_full.eq_def] at hok
  split at hok
  · cases hok
  · split at hok
    · cases hok
    · split at hok
      · cases hok; exact ha
      · revert hok
        cases hgo : nodes[oldOff]? with
        | none => intro hok; cases hok; exact ha
        | some onode =>
        cases onode with
        | internal a b c => intro hok; cases hok; exact ha
        | leaf oldP oldNx oldKvs =>
        cases hgn : nodes[newOff]? with
        | none => intro hok; cases hok; exact ha
        | some nnode =>
        cases nnode with
        | internal a b c => intro hok; cases hok; exact ha
        | leaf newP newNx newKvs =>
        intro hok
        dsimp only at hok
        revert hok
        cases hg0 : newKvs[0]? with
        | none => intro hok; cases hok
        | some kv0 =>
        intro hok
        dsimp only at hok
        simp only [apply_ite Prod.fst, apply_ite Prod.snd] at hok
        have holdLen : oldKvs.length + 1 ≤ order - 1 := hold _ _ _ hgo
        have hnewLen : newKvs.length + 1 ≤ order - 1 := hnew _ _ _ hgn
        have ha2 : arenaOk order ((nodes.set oldOff (BPTreeNode.leaf oldP (some newOff)
            (if strCmp kv0.key kv.key = Ordering.gt then BPTree.insert_non_full oldKvs kv
             else oldKvs))).set newOff (BPTreeNode.leaf oldP oldNx
            (if strCmp kv0.key kv.key = Ordering.gt then newKvs
             else BPTree.insert_non_full newKvs kv))) := by
          refine arenaOk_set order _ newOff _ (arenaOk_set order _ oldOff _ ha ?_) ?_
          · show (if strCmp kv0.key kv.key = Ordering.gt then
                BPTree.insert_non_full oldKvs kv else oldKvs).length ≤ order - 1
            simp only [insert_non_full_eq_upsertList]
            have := ite_upsert_length_le (strCmp kv0.key kv.key = Ordering.gt)
              kv oldKvs
            omega

          · show (if strCmp kv0.key kv.key = Ordering.gt then newKvs
                else BPTree.insert_non_full newKvs kv).length ≤ order - 1
            simp only [insert_non_full_eq_upsertList]
            have h5 : (if strCmp kv0.key kv.key = Ordering.gt then newKvs
                else upsertList kv newKvs).length ≤ newKvs.length + 1 := by
              split
              · omega
              · exact length_upsertList_le kv newKvs
            omega
        cases oldP with
        | none =>
          dsimp only at hok
          revert hok
          split
          · rename_i o nn hgo2 hgn2
            intro hok
            cases hok
            refine arenaOk_set order _ newOff _ (arenaOk_set order _ oldOff _ ?_ ?_) ?_
            · exact arenaOk_append order _ (BPTreeNode.internal none [oldOff, newOff] [kv0.key]) ha2 (by exact ⟨by simp, by simp; omega⟩)
            · refine nodeOk_setLeafParent order _ _ ?_
              refine arenaOk_get order _ oldOff _ (arenaOk_append order _ (BPTreeNode.internal none [oldOff, newOff] [kv0.key]) ha2 (by exact ⟨by simp, by simp; omega⟩)) hgo2
            · refine nodeOk_setLeafParent order _ _ ?_
              refine arenaOk_get order _ newOff _ (arenaOk_append order _ (BPTreeNode.internal none [oldOff, newOff] [kv0.key]) ha2 (by exact ⟨by simp, by simp; omega⟩)) hgn2
          · intro hok
            cases hok
            exact arenaOk_append order _ (BPTreeNode.internal none [oldOff, newOff] [kv0.key]) ha2 (by exact ⟨by simp, by simp; omega⟩)
        | some poff =>
          exact splitNodesF_arenaOk order h3 _ _ _ _ _ _ _ hok ha2

/-- `insert` preserves the capacity/alignment invariant. -/
theorem insert_arenaOk (order : Nat) (h3 : 3 ≤ order) (nodes : List BPTreeNode) (kv : KV)
    (ℓ : Nat) (nodes' : List BPTreeNode) (r : Option Nat)
    (hok : BPTree.insert nodes kv ℓ order = .ok (nodes', r))
    (ha : arenaOk order nodes) : arenaOk order nodes' := by
  unfold BPTree.insert at hok
  revert hok
  cases hg : nodes[ℓ]? with
  | none => intro hok; cases hok; exact ha
  | some n =>
  cases n with
  | internal a b c => intro hok; cases hok; exact ha
  | leaf p nx kvs =>
  intro hok
  dsimp only at hok
  have hcap : kvs.length ≤ order - 1 := arenaOk_get order nodes ℓ _ ha hg
  by_cases hfull : kvs.length = order - 1
  · rw [if_pos hfull] at hok
    simp only [BPTreeNode.split] at hok
    have hℓ : ℓ < nodes.length := lt_length_of_getElem? hg
    refine insert_full_arenaOk order h3 _ kv ℓ nodes.length nodes' r hok ?_ ?_ ?_
    · refine arenaOk_append order _ (BPTreeNode.leaf p none (kvs.drop (kvs.length / 2)))
        (arenaOk_set order _ ℓ (BPTreeNode.leaf p nx (kvs.take (kvs.length / 2))) ha ?_) ?_
      · show (kvs.take (kvs.length / 2)).length ≤ order - 1
        simp only [List.length_take]
        omega
      · show (kvs.drop (kvs.length / 2)).length ≤ order - 1
        simp only [List.length_drop]
        omega
    · intro p' nx' kvs' hq
      rw [List.getElem?_append_left (by simpa using hℓ), List.getElem?_set_eq hℓ] at hq
      cases hq
      simp only [List.length_take]
      omega
    · intro p' nx' kvs' hq
      have hc := List.getElem?_concat_length
        (nodes.set ℓ (BPTreeNode.leaf p nx (kvs.take (kvs.length / 2))))
        (BPTreeNode.leaf p none (kvs.drop (kvs.length / 2)))
      rw [List.length_set] at hc
      rw [hc] at hq
      cases hq
      simp only [List.length_drop]
      omega
  · rw [if_neg hfull] at hok
    cases hok
    refine arenaOk_set order _ ℓ _ ha ?_
    show (BPTree.insert_non_full kvs kv).length ≤ order - 1
    rw [insert_non_full_eq_upsertList]
    have := length_upsertList_le kv kvs
    omega

/-- `put` keeps the configured order and preserves the invariant. -/
theorem put_arenaOk (t t' : BPTree) (k v : String) (h3 : 3 ≤ t.order)
    (ha : arenaOk t.order t.nodes) (hok : BPTree.put t k v = .ok t') :
    t'.order = t.order ∧ arenaOk t'.order t'.nodes := by
  unfold BPTree.put at hok
  revert hok
  cases hs : BPTree.search_leaf t.nodes t.root k with
  | error e => intro hok; simp [Bind.bind, Except.bind] at hok
  | ok ℓ =>
  intro hok
  simp only [Bind.bind, Except.bind] at hok
  revert hok
  cases hi : BPTree.insert t.nodes ⟨k, v⟩ ℓ t.order with
  | error e => intro hok; simp at hok
  | ok pr =>
  obtain ⟨n4, r4⟩ := pr
  intro hok
  dsimp only at hok
  cases hok
  exact ⟨rfl, insert_arenaOk t.order h3 t.nodes _ ℓ n4 r4 hi ha⟩

/-- Any sequence of successful puts preserves the invariant. -/
theorem runPuts_arenaOk : ∀ (ops : List (String × String)) (t t' : BPTree),
    3 ≤ t.order → arenaOk t.order t.nodes → runPuts t ops = .ok t' →
    t'.order = t.order ∧ arenaOk t'.order t'.nodes := by
  intro ops
  induction ops with
  | nil => intro t t' h3 ha hok; cases hok; exact ⟨rfl, ha⟩
  | cons op rest ih =>
    intro t t' h3 ha hok
    obtain ⟨k, v⟩ := op
    rw [runPuts] at hok
    revert hok
    cases hp : BPTree.put t k v with
    | error e => intro hok; simp [Bind.bind, Except.bind] at hok
    | ok t₁ =>
    intro hok
    simp only [Bind.bind, Except.bind] at hok
    obtain ⟨ho, ha1⟩ := put_arenaOk t t₁ k v h3 ha hp
    obtain ⟨ho2, ha2⟩ := ih t₁ t' (by omega) ha1 hok
    exact ⟨by omega, ha2⟩

/-- Normalization of any requested order at least 1 yields order ≥ 3. -/
theorem new_order_ge3 (order : Nat) (h1 : 1 ≤ order) : 3 ≤ (BPTree.new order).order := by
  show 3 ≤ if order % 2 = 0 then order + 1 else if order < 3 then 3 else order
  by_cases he : order % 2 = 0
  · rw [if_pos he]; omega
  · rw [if_neg he]
    by_cases hlt : order < 3
    · rw [if_pos hlt]
    · rw [if_neg hlt]; omega

/-- A fresh tree satisfies the capacity/alignment invariant. -/
theorem new_arenaOk (order : Nat) : arenaOk (BPTree.new order).order (BPTree.new order).nodes := by
  intro n hn
  have : n = BPTreeNode.leaf none none [] := by simpa [BPTree.new] using hn
  subst this
  show (0:Nat) ≤ _
  omega

/-- C4: after every put sequence from `new order` (`order ≥ 1`) that
returns, every node holds at most `order - 1` keys (internal) or entries
(leaf), `order` being the tree's normalized order; overflow is always
resolved before the call returns (`get` borrows the tree immutably and
cannot change it, so only puts matter). -/
theorem c4_capacity_bound (order : Nat) (ops : List (String × String)) (t : BPTree)
    (h1 : 1 ≤ order) (hok : runPuts (BPTree.new order) ops = .ok t) :
    ∀ n ∈ t.nodes, nodeCount n ≤ t.order - 1 := by
  obtain ⟨ho, ha⟩ := runPuts_arenaOk ops (BPTree.new order) t
    (new_order_ge3 order h1) (new_arenaOk order) hok
  intro n hn
  have hono := ha n hn
  cases n with
  | internal p c k => exact hono.2
  | leaf p nx kvs => exact hono

/-- C4 witness: one put into a fresh order-3 tree. -/
theorem c4_capacity_bound_witness :
    runPuts (BPTree.new 3) [("a", "1")] = .ok w1tree ∧
    ∀ n ∈ w1tree.nodes, nodeCount n ≤ w1tree.order - 1 :=
  ⟨rfl, c4_capacity_bound 3 [("a", "1")] w1tree (by decide) rfl⟩

/-- C5: after every put sequence from `new order` (`order ≥ 1`) that
returns, every internal node satisfies `len child = len keys + 1`; and the
operations that modify internal nodes preserve alignment: `push_data`, a
succeeding `split`, and the two freshly created roots (`[old, new]` with
one separator in `insert_full`, `[old]` with no key in `split_nodes`). -/
theorem c5_alignment (order : Nat) (ops : List (String × String)) (t : BPTree)
    (h1 : 1 ≤ order) (hok : runPuts (BPTree.new order) ops = .ok t) :
    (∀ n ∈ t.nodes, aligned n) ∧
    (∀ (p : Option Nat) (c : List Nat) (k : List String) (nc : Nat) (key : String),
      aligned (.internal p c k) → aligned ((BPTreeNode.internal p c k).push_data nc key)) ∧
    (∀ (p : Option Nat) (c : List Nat) (k : List String) (L R : BPTreeNode),
      aligned (.internal p c k) → (BPTreeNode.internal p c k).split = .ok (L, R) →
      aligned L ∧ aligned R) ∧
    (∀ (o nn : Nat) (key : String), aligned (.internal none [o, nn] [key])) ∧
    (∀ o : Nat, aligned (.internal none [o] [])) := by
  obtain ⟨ho, ha⟩ := runPuts_arenaOk ops (BPTree.new order) t
    (new_order_ge3 order h1) (new_arenaOk order) hok
  refine ⟨?_, ?_, ?_, ?_, ?_⟩
  · intro n hn
    have hono := ha n hn
    cases n with
    | internal p c k => exact hono.1
    | leaf p nx kvs => trivial
  · intro p c k nc key hal
    rw [BPTreeNode.push_data]
    cases hb : bsearchBy id key k with
    | found j => exact hal
    | notFound j =>
      have hj : j ≤ k.length := bsearchBy_notFound_le id key k j hb
      have hal' : c.length = k.length + 1 := hal
      show (c.insertIdx (j + 1) nc).length = (k.insertIdx j key).length + 1
      rw [List.length_insertIdx (j + 1) c (by omega), List.length_insertIdx j k hj]
      omega
  · intro p c k L R hal hsp
    have hal' : c.length = k.length + 1 := hal
    by_cases h1c : c.length / 2 ≤ k.length
    · by_cases h2c : c.length / 2 + 1 ≤ c.length
      · by_cases h3c : 1 ≤ k.length - c.length / 2
        · rw [internal_split_eq p c k h1c h2c h3c] at hsp
          cases hsp
          constructor
          · show (c.take (c.length / 2 + 1)).length = (k.take (c.length / 2)).length + 1
            simp only [List.length_take]
            omega
          · show (c.drop (c.length / 2 + 1)).length = ((k.drop (c.length / 2)).drop 1).length + 1
            simp only [List.length_drop]
            omega
        · exfalso
          rw [BPTreeNode.split] at hsp
          unfold splitOff at hsp
          rw [if_pos h1c, if_pos h2c] at hsp
          simp only [Bind.bind, Except.bind] at hsp
          rw [if_neg (by rw [List.length_drop]; omega)] at hsp
          cases hsp
      · exfalso
        rw [BPTreeNode.split] at hsp
        unfold splitOff at hsp
        rw [if_pos h1c, if_neg h2c] at hsp
        simp only [Bind.bind, Except.bind] at hsp
        cases hsp
    · exfalso
      rw [BPTreeNode.split] at hsp
      unfold splitOff at hsp
      rw [if_neg h1c] at hsp
      simp only [Bind.bind, Except.bind] at hsp
      cases hsp
  · intro o nn key
    show ([o, nn] : List Nat).length = ([key] : List String).length + 1
    rfl
  · intro o
    show ([o] : List Nat).length = ([] : List String).length + 1
    rfl

/-- C5 witness: one put into a fresh order-3 tree, plus the new-root shape
`child = [0, 1]`, `keys = ["b"]` that a first split would create. -/
theorem c5_alignment_witness :
    runPuts (BPTree.new 3) [("a", "1")] = .ok w1tree ∧
    aligned (BPTreeNode.leaf none none [⟨"a", "1"⟩]) ∧
    aligned (BPTreeNode.internal none [0, 1] ["b"]) :=
  ⟨rfl,
   (c5_alignment 3 [("a", "1")] w1tree (by decide) rfl).1
     (BPTreeNode.leaf none none [⟨"a", "1"⟩]) (by simp [w1tree]),
   (c5_alignment 3 [("a", "1")] w1tree (by decide) rfl).2.2.2.1 0 1 "b"⟩
